import Mathlib

/-!
Verification of the threadpool_fractal renderer.

This file gives a shallow embedding of the core algorithms of the
repository (escape-time evaluation, pixel-to-plane coordinate mapping,
multi-stop gradient color mapping, and the three work-partitioning
strategies), translated directly from the Rust sources, together with
theorems settling the specification claims.

Modelling conventions:
* `u32`/`usize` values are modelled as `Nat`; the one place where the
  source computes in `i32` (the subrange-selection loop of
  `iterations_to_color`) is modelled with an explicit wrapping cast
  `toI32` and a wrapping subtraction `wrapI32` (two's-complement
  wrap-around, the release-profile semantics of the source's
  `range_cover -= subrange_width as i32`; a debug build would panic at
  the overflow instead), so that the loop is exact on the full `u32`
  range of inputs.
* `f64` arithmetic is modelled by exact rational arithmetic (`ℚ`).
  Every concrete computation these claims touch stays far enough from
  rounding decision boundaries that the idealization agrees with the
  IEEE-754 double computation: quotients `a / w` of integers below
  `2^32` are more than an ulp away from the half-integers where
  `f64::round` decides, except when they are exactly representable,
  in which case the double computation is itself exact.
* `f64::round` (round half away from zero) is `roundHalfAwayFromZero`.
* Rust panics (assertion failures, `%` by zero, out-of-bounds indexing)
  are modelled by returning `none` from an `Option`-valued function.
* The shared pixel buffer is a total function from coordinates to
  colors; worker tasks write disjoint pixel sets, so the concurrent
  final state of a render equals the state after executing the tasks
  in submission order, which is what the render functions compute.
-/

namespace ThreadpoolFractal

/-- Rounding half away from zero, the behavior of Rust's `f64::round`. -/
def roundHalfAwayFromZero (q : ℚ) : ℤ :=
  if 0 ≤ q then ⌊q + 1/2⌋ else ⌈q - 1/2⌉

/-- RGB color with three 8-bit channels, from `image::Rgb<u8>`.
Channels are modelled as `Nat`; all constructed values are ≤ 255. -/
structure Rgb where
  r : ℕ
  g : ℕ
  b : ℕ
deriving DecidableEq, Repr

/-- Color constant `BLACK` from `colors.rs`. -/
def BLACK : Rgb := ⟨0, 0, 0⟩

/-- Color constant `WHITE` from `colors.rs`. -/
def WHITE : Rgb := ⟨255, 255, 255⟩

/-- Color constant `RED` from `colors.rs`. -/
def RED : Rgb := ⟨255, 0, 0⟩

/-- Color constant `ORANGE` from `colors.rs`. -/
def ORANGE : Rgb := ⟨255, 127, 0⟩

/-- Color constant `YELLOW` from `colors.rs`. -/
def YELLOW : Rgb := ⟨255, 255, 0⟩

/-- Color constant `GREEN` from `colors.rs`. -/
def GREEN : Rgb := ⟨0, 255, 0⟩

/-- Color constant `BLUE` from `colors.rs`. -/
def BLUE : Rgb := ⟨0, 0, 255⟩

/-- Color constant `VIOLET` from `colors.rs`. -/
def VIOLET : Rgb := ⟨127, 0, 255⟩

/-- Color constant `CYAN` from `colors.rs`. -/
def CYAN : Rgb := ⟨0, 255, 255⟩

/-- The `blended_delta` computed inside `blend_color_channel` in
`colors.rs`: `(delta as f64 * degree).round() as u8`, where
`delta = (a as i32 - b as i32).abs() as u8 = |a - b|`.
The `as u8` saturating cast of a negative rounded value to `0` is
`Int.toNat`. -/
def blendedDelta (a_channel b_channel : ℕ) (degree : ℚ) : ℕ :=
  let delta : ℕ := max a_channel b_channel - min a_channel b_channel
  (roundHalfAwayFromZero ((delta : ℚ) * degree)).toNat

/-- Translation of `blend_color_channel` from `colors.rs`: translates
`a_channel` toward `b_channel` by `degree` percent. -/
def blend_color_channel (a_channel b_channel : ℕ) (degree : ℚ) : ℕ :=
  if degree = 0 then a_channel
  else if degree = 1 then b_channel
  else if a_channel = b_channel then a_channel
  else if a_channel ≤ b_channel then a_channel + blendedDelta a_channel b_channel degree
  else a_channel - blendedDelta a_channel b_channel degree

/-- Translation of `blend_colors` from `colors.rs`: blends color `a`
into color `b` by the given `degree`, channel by channel. -/
def blend_colors (a b : Rgb) (degree : ℚ) : Rgb :=
  ⟨blend_color_channel a.r b.r degree,
   blend_color_channel a.g b.g degree,
   blend_color_channel a.b b.b degree⟩

/-- Wrapping cast from `u32`-as-`Nat` to `i32`-as-`Int`, used where
`iterations_to_color` writes `iterations as i32` / `subrange_width as i32`. -/
def toI32 (n : ℕ) : ℤ :=
  if n % 2 ^ 32 < 2 ^ 31 then ((n % 2 ^ 32 : ℕ) : ℤ)
  else ((n % 2 ^ 32 : ℕ) : ℤ) - 2 ^ 32

/-- Two's-complement wrap-around of an integer into the `i32` range
`[-2^31, 2^31)`, the release-profile result of an overflowing `i32`
operation. -/
def wrapI32 (z : ℤ) : ℤ :=
  (z + 2 ^ 31) % 2 ^ 32 - 2 ^ 31

/-- The subrange-selection loop body of `iterations_to_color`
(`for s in 0..=subranges { range_cover -= subrange_width as i32; ... }`).
The `i32` subtraction wraps on overflow (reachable only for
`subrange_width ≥ 2^31` or `iterations ≥ 2^31`). `fuel` counts the
loop iterations still available (`subranges + 1` at entry); if the
loop were to complete without breaking, the initial value `0` of
`chosen_subrange` is returned. -/
def chooseSubrangeAux (wI : ℤ) (subranges : ℕ) : ℕ → ℕ → ℤ → ℕ
  | 0, _, _ => 0
  | fuel + 1, s, range_cover =>
    let range_cover' := wrapI32 (range_cover - wI)
    if range_cover' ≤ 0 ∨ s = subranges - 1 then s
    else chooseSubrangeAux wI subranges fuel (s + 1) range_cover'

/-- Subrange selection in `iterations_to_color`: `chosen_subrange` is
`0` unless `subranges > 1`, in which case it is computed by the loop,
with the source's `u32`-to-`i32` casts made explicit. -/
def chooseSubrange (iterations subrange_width subranges : ℕ) : ℕ :=
  if 1 < subranges then
    chooseSubrangeAux (toI32 subrange_width) subranges (subranges + 1) 0 (toI32 iterations)
  else 0

/-- Translation of `iterations_to_color` from `colors.rs`. Returns
`none` where the Rust function panics: on the `assert!(palette.len() > 1)`,
on `iterations % subrange_width` with a zero `subrange_width`, and on
out-of-bounds palette indexing (the last is proved unreachable). -/
def iterations_to_color (iterations limit : ℕ) (palette : List Rgb) : Option Rgb :=
  if palette.length ≤ 1 then none
  else if iterations = limit then some BLACK
  else
    let subranges := palette.length - 1
    let subrange_width := (roundHalfAwayFromZero ((limit : ℚ) / (subranges : ℚ))).toNat
    let chosen_subrange := chooseSubrange iterations subrange_width subranges
    let start_color := chosen_subrange
    let next_color := start_color + 1
    let subrange_cover? : Option ℚ :=
      if subrange_width < iterations then
        if subrange_width = 0 then none
        else
          let mapped_iterations := iterations % subrange_width
          if mapped_iterations = 0 then some 1
          else some ((mapped_iterations : ℚ) / (subrange_width : ℚ))
      else some ((iterations : ℚ) / (subrange_width : ℚ))
    match subrange_cover? with
    | none => none
    | some subrange_cover =>
      if next_color < palette.length then
        some (blend_colors (palette.getD start_color BLACK) (palette.getD next_color BLACK)
          subrange_cover)
      else none

/-!
Kernel-computable evaluation layer. The rational arithmetic above does
not reduce inside `decide`, so we prove once and for all that, at the
rational arguments `p / q` actually produced by the renderer, the color
functions agree with purely `Nat`-valued counterparts, which the kernel
evaluates. These counterparts are *derived*, not translations; the
`_eq_` lemmas below are the bridge.
-/

/-- Nat-level value of `blendedDelta a b (p / q)`:
`round(Δ · p / q) = ⌊(2Δp + q) / (2q)⌋`. -/
def blendedDeltaNat (a_channel b_channel p q : ℕ) : ℕ :=
  (2 * (max a_channel b_channel - min a_channel b_channel) * p + q) / (2 * q)

/-- Nat-level value of `blend_color_channel a b (p / q)`. -/
def blendNat (a_channel b_channel p q : ℕ) : ℕ :=
  if p = 0 ∨ q = 0 then a_channel
  else if p = q then b_channel
  else if a_channel = b_channel then a_channel
  else if a_channel ≤ b_channel then a_channel + blendedDeltaNat a_channel b_channel p q
  else a_channel - blendedDeltaNat a_channel b_channel p q

/-- Nat-level value of `blend_colors a b (p / q)`. -/
def blendColorsNat (a b : Rgb) (p q : ℕ) : Rgb :=
  ⟨blendNat a.r b.r p q, blendNat a.g b.g p q, blendNat a.b b.b p q⟩

theorem roundHalfAwayFromZero_div_toNat (a q : ℕ) :
    (roundHalfAwayFromZero ((a : ℚ) / (q : ℚ))).toNat = (2 * a + q) / (2 * q) := by
  rcases Nat.eq_zero_or_pos q with hq | hq
  · subst hq
    have h1 : ((a : ℚ) / ((0 : ℕ) : ℚ)) = 0 := by norm_num
    rw [h1, roundHalfAwayFromZero, if_pos le_rfl, zero_add]
    rw [show ((1 : ℚ) / 2) = ((1 : ℕ) : ℚ) / ((2 : ℕ) : ℚ) by norm_num,
      Rat.floor_natCast_div_natCast]
    simp
  · have hnn : (0 : ℚ) ≤ (a : ℚ) / (q : ℚ) := by positivity
    rw [roundHalfAwayFromZero, if_pos hnn]
    have hrw : (a : ℚ) / (q : ℚ) + 1 / 2 = ((2 * a + q : ℕ) : ℚ) / ((2 * q : ℕ) : ℚ) := by
      have hq0 : ((q : ℚ)) ≠ 0 := by positivity
      push_cast
      field_simp
      ring
    rw [hrw, Rat.floor_natCast_div_natCast, ← Int.natCast_div, Int.toNat_ofNat]

theorem blendedDelta_cast (a b p q : ℕ) :
    blendedDelta a b ((p : ℚ) / (q : ℚ)) = blendedDeltaNat a b p q := by
  simp only [blendedDelta, blendedDeltaNat]
  have hrw : ((max a b - min a b : ℕ) : ℚ) * ((p : ℚ) / (q : ℚ)) =
      (((max a b - min a b) * p : ℕ) : ℚ) / (q : ℚ) := by
    push_cast
    ring
  rw [hrw, roundHalfAwayFromZero_div_toNat]
  rw [show 2 * ((max a b - min a b) * p) = 2 * (max a b - min a b) * p by ring]

theorem blend_color_channel_cast (a b p q : ℕ) :
    blend_color_channel a b ((p : ℚ) / (q : ℚ)) = blendNat a b p q := by
  unfold blend_color_channel blendNat
  rcases Nat.eq_zero_or_pos q with hq | hq
  · subst hq
    have h0 : ((p : ℚ) / ((0 : ℕ) : ℚ)) = 0 := by norm_num
    rw [h0]
    simp
  · have hq0 : ((q : ℚ)) ≠ 0 := by positivity
    have hzero : ((p : ℚ) / (q : ℚ) = 0) ↔ (p = 0 ∨ q = 0) := by
      rw [div_eq_zero_iff]
      constructor
      · rintro (h | h)
        · exact Or.inl (by exact_mod_cast h)
        · exact Or.inr (by exact_mod_cast h)
      · rintro (h | h)
        · exact Or.inl (by exact_mod_cast h)
        · exact Or.inr (by exact_mod_cast h)
    have hone : ((p : ℚ) / (q : ℚ) = 1) ↔ p = q := by
      rw [div_eq_one_iff_eq hq0]
      exact_mod_cast Iff.rfl
    by_cases hp0 : p = 0 ∨ q = 0
    · rw [if_pos (hzero.2 hp0), if_pos hp0]
    · rw [if_neg fun h => hp0 (hzero.1 h), if_neg hp0]
      by_cases hpq : p = q
      · rw [if_pos (hone.2 hpq), if_pos hpq]
      · rw [if_neg fun h => hpq (hone.1 h), if_neg hpq]
        by_cases hab : a = b
        · rw [if_pos hab, if_pos hab]
        · rw [if_neg hab, if_neg hab, blendedDelta_cast]

theorem blend_colors_cast (a b : Rgb) (p q : ℕ) :
    blend_colors a b ((p : ℚ) / (q : ℚ)) = blendColorsNat a b p q := by
  unfold blend_colors blendColorsNat
  rw [blend_color_channel_cast, blend_color_channel_cast, blend_color_channel_cast]

/-- Nat-level evaluation of `iterations_to_color`, proved equal to it
in `iterations_to_color_eq_nat`. -/
def iterations_to_colorNat (iterations limit : ℕ) (palette : List Rgb) : Option Rgb :=
  if palette.length ≤ 1 then none
  else if iterations = limit then some BLACK
  else
    let subranges := palette.length - 1
    let subrange_width := (2 * limit + subranges) / (2 * subranges)
    let chosen_subrange := chooseSubrange iterations subrange_width subranges
    let next_color := chosen_subrange + 1
    let cover? : Option (ℕ × ℕ) :=
      if subrange_width < iterations then
        if subrange_width = 0 then none
        else if iterations % subrange_width = 0 then some (subrange_width, subrange_width)
        else some (iterations % subrange_width, subrange_width)
      else some (iterations, subrange_width)
    match cover? with
    | none => none
    | some pq =>
      if next_color < palette.length then
        some (blendColorsNat (palette.getD chosen_subrange BLACK)
          (palette.getD next_color BLACK) pq.1 pq.2)
      else none

theorem iterations_to_color_eq_nat (iterations limit : ℕ) (palette : List Rgb) :
    iterations_to_color iterations limit palette =
      iterations_to_colorNat iterations limit palette := by
  unfold iterations_to_color iterations_to_colorNat
  by_cases hlen : palette.length ≤ 1
  · rw [if_pos hlen, if_pos hlen]
  · rw [if_neg hlen, if_neg hlen]
    by_cases hit : iterations = limit
    · rw [if_pos hit, if_pos hit]
    · rw [if_neg hit, if_neg hit]
      simp only
      rw [roundHalfAwayFromZero_div_toNat]
      set s := palette.length - 1 with hs
      set w := (2 * limit + s) / (2 * s) with hw
      by_cases hlt : w < iterations
      · rw [if_pos hlt, if_pos hlt]
        by_cases hw0 : w = 0
        · rw [if_pos hw0, if_pos hw0]
        · rw [if_neg hw0, if_neg hw0]
          by_cases hmod : iterations % w = 0
          · rw [if_pos hmod, if_pos hmod]
            simp only
            have h1 : (1 : ℚ) = (w : ℚ) / (w : ℚ) := by
              rw [div_self (by exact_mod_cast hw0)]
            rw [h1, blend_colors_cast]
          · rw [if_neg hmod, if_neg hmod]
            simp only
            rw [blend_colors_cast]
      · rw [if_neg hlt, if_neg hlt]
        simp only
        rw [blend_colors_cast]

/-- Claim C2: with palette `[RED, GREEN, BLUE]` and limit 100 (subrange
width 50), `iterations_to_color` returns exactly `RED` at iteration
count 0, exactly `GREEN` at 50, the near-blue color `(0, 5, 250)` at 99
(within 5 of `BLUE = (0, 0, 255)` on every channel), and `BLACK` at
100. Matches the source's `test_iterations_to_color_odd_spectrum`. -/
theorem claim_C2 :
    iterations_to_color 0 100 [RED, GREEN, BLUE] = some RED ∧
    iterations_to_color 50 100 [RED, GREEN, BLUE] = some GREEN ∧
    iterations_to_color 99 100 [RED, GREEN, BLUE] = some ⟨0, 5, 250⟩ ∧
    iterations_to_color 100 100 [RED, GREEN, BLUE] = some BLACK := by
  refine ⟨?_, ?_, ?_, ?_⟩ <;> (rw [iterations_to_color_eq_nat]; decide)

theorem floor_one_half : ⌊(1 : ℚ) / 2⌋ = 0 := by
  rw [show ((1 : ℚ) / 2) = ((1 : ℕ) : ℚ) / ((2 : ℕ) : ℚ) by norm_num,
    Rat.floor_natCast_div_natCast]
  decide

theorem blendedDelta_le (a b : ℕ) (f : ℚ) (h0 : 0 ≤ f) (h1 : f ≤ 1) :
    blendedDelta a b f ≤ max a b - min a b := by
  simp only [blendedDelta]
  set Δ : ℕ := max a b - min a b with hΔ
  have hx0 : (0 : ℚ) ≤ (Δ : ℚ) * f := by positivity
  rw [roundHalfAwayFromZero, if_pos hx0]
  have hle : ⌊(Δ : ℚ) * f + 1 / 2⌋ ≤ ⌊(Δ : ℚ) + 1 / 2⌋ := by
    apply Int.floor_mono
    have : (Δ : ℚ) * f ≤ (Δ : ℚ) * 1 := by
      apply mul_le_mul_of_nonneg_left h1 (by positivity)
    linarith
  have heq : ⌊(Δ : ℚ) + 1 / 2⌋ = Δ := by
    rw [show ((Δ : ℚ) + 1 / 2) = ((Δ : ℤ) : ℚ) + 1 / 2 by push_cast; ring,
      Int.floor_int_add, floor_one_half]
    omega
  omega

/-- The reflected pair of roundings: when `x` is not exactly halfway
between two integers, `round(x)` and `round(-x)` cancel. -/
theorem floor_half_reflect (x : ℚ) (hfr : Int.fract x ≠ 1 / 2) :
    ⌊x + 1 / 2⌋ + ⌊1 / 2 - x⌋ = 0 := by
  have h2 : x + 1 / 2 = (x - 1 / 2) + 1 := by ring
  have h1 : (1 / 2 : ℚ) - x = -(x - 1 / 2) := by ring
  rw [h2, Int.floor_add_one, h1, Int.floor_neg]
  have hy : ((⌊x - 1 / 2⌋ : ℚ)) ≠ x - 1 / 2 := by
    intro h
    apply hfr
    have hx : x = ((⌊x - 1 / 2⌋ : ℤ) : ℚ) + 1 / 2 := by
      linarith
    rw [hx, Int.fract_int_add, Int.fract_eq_self.2 ⟨by norm_num, by norm_num⟩]
  have hlt : ((⌊x - 1 / 2⌋ : ℚ)) < x - 1 / 2 :=
    lt_of_le_of_ne (Int.floor_le _) hy
  have hceil : ⌈x - 1 / 2⌉ = ⌊x - 1 / 2⌋ + 1 := by
    apply le_antisymm
    · apply Int.ceil_le.2
      push_cast
      exact (Int.lt_floor_add_one (x - 1 / 2)).le
    · exact Int.lt_ceil.2 hlt
  omega

theorem blendedDelta_add_reflect (a b : ℕ) (f : ℚ) (h0 : 0 ≤ f) (h1 : f ≤ 1)
    (hfr : Int.fract (((max a b - min a b : ℕ) : ℚ) * f) ≠ 1 / 2) :
    blendedDelta a b f + blendedDelta b a (1 - f) = max a b - min a b := by
  simp only [blendedDelta]
  rw [max_comm b a, min_comm b a]
  set Δ : ℕ := max a b - min a b with hΔ
  set x : ℚ := (Δ : ℚ) * f with hx
  have hx0 : (0 : ℚ) ≤ x := by positivity
  have hxΔ : x ≤ (Δ : ℚ) := by
    have : (Δ : ℚ) * f ≤ (Δ : ℚ) * 1 := mul_le_mul_of_nonneg_left h1 (by positivity)
    simpa using this
  have hy0 : (0 : ℚ) ≤ (Δ : ℚ) * (1 - f) := by
    apply mul_nonneg (by positivity)
    linarith
  rw [roundHalfAwayFromZero, if_pos hx0, roundHalfAwayFromZero, if_pos hy0]
  have hyx : (Δ : ℚ) * (1 - f) + 1 / 2 = (1 / 2 - x) + ((Δ : ℤ) : ℚ) := by
    push_cast
    ring
  have hsum : ⌊x + 1 / 2⌋ + ⌊(Δ : ℚ) * (1 - f) + 1 / 2⌋ = (Δ : ℤ) := by
    rw [hyx, Int.floor_add_int]
    have := floor_half_reflect x hfr
    omega
  have hA : 0 ≤ ⌊x + 1 / 2⌋ := Int.floor_nonneg.2 (by linarith)
  have hB : 0 ≤ ⌊(Δ : ℚ) * (1 - f) + 1 / 2⌋ := Int.floor_nonneg.2 (by linarith)
  omega

/-- Claim C4 (corrected): per-channel blending is symmetric —
`blend(a, b, frac) = blend(b, a, 1 - frac)` — except when
`|a - b| * frac` lands exactly halfway between two integers, where both
roundings move away from zero and the two results differ by one. -/
theorem claim_C4 (a b : ℕ) (f : ℚ) (ha : a ≤ 255) (hb : b ≤ 255)
    (h0 : 0 ≤ f) (h1 : f ≤ 1)
    (hfr : Int.fract (((max a b - min a b : ℕ) : ℚ) * f) ≠ 1 / 2) :
    blend_color_channel a b f = blend_color_channel b a (1 - f) := by
  unfold blend_color_channel
  by_cases hf0 : f = 0
  · subst hf0
    norm_num
  · by_cases hf1 : f = 1
    · subst hf1
      norm_num
    · have hg0 : (1 : ℚ) - f ≠ 0 := by
        intro h
        exact hf1 (by linarith)
      have hg1 : (1 : ℚ) - f ≠ 1 := by
        intro h
        exact hf0 (by linarith)
      rw [if_neg hf0, if_neg hf1, if_neg hg0, if_neg hg1]
      by_cases hab : a = b
      · subst hab
        simp
      · have hba0 : ¬ b = a := fun h => hab h.symm
        rw [if_neg hab, if_neg hba0]
        have hsum := blendedDelta_add_reflect a b f h0 h1 hfr
        rcases Nat.le_total a b with hle | hle
        · have hmax : max a b = b := max_eq_right hle
          have hmin : min a b = a := min_eq_left hle
          rw [hmax, hmin] at hsum
          have hba : ¬ b ≤ a := fun h => hab (Nat.le_antisymm hle h)
          rw [if_pos hle, if_neg hba]
          omega
        · have hmax : max a b = a := max_eq_left hle
          have hmin : min a b = b := min_eq_right hle
          rw [hmax, hmin] at hsum
          have hba : ¬ a ≤ b := fun h => hab (Nat.le_antisymm h hle)
          rw [if_neg hba, if_pos hle]
          omega

/-- Claim C4, counterexample to the claim as stated: at
`a = 255, b = 0, frac = 1/2` the product `|a-b| * frac = 127.5` is
exactly half-integral, and the two blends disagree: `127` versus `128`.
These are the values the source's own `test_blend_color_channel`
asserts. -/
theorem claim_C4_counterexample :
    blend_color_channel 255 0 (1 / 2) = 127 ∧
    blend_color_channel 0 255 (1 - 1 / 2) = 128 ∧
    blend_color_channel 255 0 (1 / 2) ≠ blend_color_channel 0 255 (1 - 1 / 2) := by
  have e1 : ((1 : ℚ) / 2) = ((1 : ℕ) : ℚ) / ((2 : ℕ) : ℚ) := by norm_num
  have e2 : ((1 : ℚ) - 1 / 2) = ((1 : ℕ) : ℚ) / ((2 : ℕ) : ℚ) := by norm_num
  refine ⟨?_, ?_, ?_⟩
  · rw [e1, blend_color_channel_cast]
    decide
  · rw [e2, blend_color_channel_cast]
    decide
  · rw [e2, e1, blend_color_channel_cast, blend_color_channel_cast]
    decide

/-- Claim C4 witness: a concrete instance of the amended symmetry with
all hypotheses discharged (`a = 0, b = 100, frac = 1/2`, product `50`
not half-integral). -/
theorem claim_C4_witness :
    (0 : ℕ) ≤ 255 ∧ (100 : ℕ) ≤ 255 ∧ (0 : ℚ) ≤ 1 / 2 ∧ (1 / 2 : ℚ) ≤ 1 ∧
    Int.fract (((max 0 100 - min 0 100 : ℕ) : ℚ) * (1 / 2)) ≠ 1 / 2 ∧
    blend_color_channel 0 100 (1 / 2) = blend_color_channel 100 0 (1 - 1 / 2) := by
  have hfr : Int.fract (((max 0 100 - min 0 100 : ℕ) : ℚ) * (1 / 2)) ≠ 1 / 2 := by
    rw [show (((max 0 100 - min 0 100 : ℕ) : ℚ) * (1 / 2)) = (((50 : ℕ) : ℤ) : ℚ) by
      norm_num]
    rw [Int.fract_intCast]
    norm_num
  exact ⟨by norm_num, by norm_num, by norm_num, by norm_num, hfr,
    claim_C4 0 100 (1 / 2) (by norm_num) (by norm_num) (by norm_num) (by norm_num) hfr⟩

/-- Claim C10: for 8-bit channels and a blending degree in `[0, 1]`,
`blend_color_channel` stays within `[min a b, max a b]`; in particular
the internal delta never exceeds `max a b - min a b`, so the `u8`
addition `a + blended_delta` (bounded by `max a b ≤ 255`) cannot
overflow and the subtraction `a - blended_delta` cannot underflow. -/
theorem claim_C10 (a b : ℕ) (f : ℚ) (ha : a ≤ 255) (hb : b ≤ 255)
    (h0 : 0 ≤ f) (h1 : f ≤ 1) :
    min a b ≤ blend_color_channel a b f ∧
    blend_color_channel a b f ≤ max a b ∧
    blendedDelta a b f ≤ max a b - min a b := by
  have hd := blendedDelta_le a b f h0 h1
  refine ⟨?_, ?_, hd⟩ <;>
  · unfold blend_color_channel
    by_cases hf0 : f = 0
    · rw [if_pos hf0]
      omega
    · rw [if_neg hf0]
      by_cases hf1 : f = 1
      · rw [if_pos hf1]
        omega
      · rw [if_neg hf1]
        by_cases hab : a = b
        · rw [if_pos hab]
          omega
        · rw [if_neg hab]
          rcases Nat.le_total a b with hle | hle
          · have hmax : max a b = b := max_eq_right hle
            have hmin : min a b = a := min_eq_left hle
            rw [if_pos hle]
            omega
          · have hba : ¬ a ≤ b := fun h => hab (Nat.le_antisymm h hle)
            have hmax : max a b = a := max_eq_left hle
            have hmin : min a b = b := min_eq_right hle
            rw [if_neg hba]
            omega

/-- Claim C10 witness: concrete instance at `a = 100, b = 0, f = 1/4`. -/
theorem claim_C10_witness :
    (100 : ℕ) ≤ 255 ∧ (0 : ℕ) ≤ 255 ∧ (0 : ℚ) ≤ 1 / 4 ∧ (1 / 4 : ℚ) ≤ 1 ∧
    min 100 0 ≤ blend_color_channel 100 0 (1 / 4) ∧
    blend_color_channel 100 0 (1 / 4) ≤ max 100 0 ∧
    blendedDelta 100 0 (1 / 4) ≤ max 100 0 - min 100 0 := by
  have h := claim_C10 100 0 (1 / 4) (by norm_num) (by norm_num) (by norm_num) (by norm_num)
  exact ⟨by norm_num, by norm_num, by norm_num, by norm_num, h.1, h.2.1, h.2.2⟩

theorem toI32_eq_of_lt {n : ℕ} (h : n < 2 ^ 31) : toI32 n = (n : ℤ) := by
  unfold toI32
  have hmod : n % 2 ^ 32 = n := Nat.mod_eq_of_lt (by omega)
  rw [hmod, if_pos h]

theorem wrapI32_eq_self {z : ℤ} (h1 : -(2 ^ 31) ≤ z) (h2 : z < 2 ^ 31) : wrapI32 z = z := by
  unfold wrapI32
  omega

theorem chooseSubrangeAux_le (wI : ℤ) (subranges : ℕ) :
    ∀ fuel s range_cover, s ≤ subranges - 1 →
      chooseSubrangeAux wI subranges fuel s range_cover ≤ subranges - 1 := by
  intro fuel
  induction fuel with
  | zero => intro s rc hs; simpa [chooseSubrangeAux] using Nat.zero_le _
  | succ fuel ih =>
    intro s rc hs
    rw [chooseSubrangeAux]
    by_cases hbr : wrapI32 (rc - wI) ≤ 0 ∨ s = subranges - 1
    · rw [if_pos hbr]; exact hs
    · rw [if_neg hbr]
      apply ih
      have hne : s ≠ subranges - 1 := fun h => hbr (Or.inr h)
      omega

theorem chooseSubrange_le (iterations w subranges : ℕ) :
    chooseSubrange iterations w subranges ≤ subranges - 1 := by
  unfold chooseSubrange
  by_cases h : 1 < subranges
  · rw [if_pos h]
    exact chooseSubrangeAux_le _ _ _ _ _ (Nat.zero_le _)
  · rw [if_neg h]
    exact Nat.zero_le _

theorem ceilDiv_le_iff (n w m : ℕ) (hw : 1 ≤ w) :
    (n + w - 1) / w ≤ m ↔ n ≤ m * w := by
  rw [Nat.div_le_iff_le_mul_add_pred hw, Nat.mul_comm w m]
  omega

theorem chooseSubrangeAux_spec (n w subranges : ℕ) (hw : 1 ≤ w)
    (hn31 : n < 2 ^ 31) (hw31 : w < 2 ^ 31) :
    ∀ fuel s, s ≤ subranges - 1 → subranges - s ≤ fuel →
      s ≤ (n + w - 1) / w - 1 →
      chooseSubrangeAux (w : ℤ) subranges fuel s ((n : ℤ) - s * w) =
        min ((n + w - 1) / w - 1) (subranges - 1) := by
  set T := (n + w - 1) / w - 1 with hT
  intro fuel
  induction fuel with
  | zero =>
    intro s hs hfuel hsT
    have hsub : subranges = 0 := by omega
    subst hsub
    rw [chooseSubrangeAux, show (0 : ℕ) - 1 = 0 from rfl, Nat.min_zero]
  | succ fuel ih =>
    intro s hs hfuel hsT
    rw [chooseSubrangeAux]
    have hsw_le : s * w ≤ n := by
      by_contra hc
      rcases Nat.eq_zero_or_pos s with hs0 | hs0
      · subst hs0
        omega
      · have hle : n ≤ s * w := by omega
        have hceil := (ceilDiv_le_iff n w s hw).2 hle
        omega
    have hb1 : ((s * w : ℕ) : ℤ) ≤ (n : ℤ) := by exact_mod_cast hsw_le
    have hb2 : ((s * w : ℕ) : ℤ) = (s : ℤ) * (w : ℤ) := by push_cast; ring
    have hb3 : ((w : ℕ) : ℤ) < 2 ^ 31 := by exact_mod_cast hw31
    have hb4 : (1 : ℤ) ≤ ((w : ℕ) : ℤ) := by exact_mod_cast hw
    have hb5 : ((n : ℕ) : ℤ) < 2 ^ 31 := by exact_mod_cast hn31
    have hwrap : wrapI32 ((n : ℤ) - ↑s * ↑w - ↑w) = (n : ℤ) - ↑s * ↑w - ↑w :=
      wrapI32_eq_self (by omega) (by omega)
    rw [hwrap]
    have hkey : ((n : ℤ) - s * w - w ≤ 0) ↔ T ≤ s := by
      have h1 : ((n : ℤ) - s * w - w ≤ 0) ↔ (n : ℤ) ≤ (((s + 1) * w : ℕ) : ℤ) := by
        push_cast
        constructor <;> intro h <;> nlinarith [h]
      have h2 : ((n : ℤ) ≤ (((s + 1) * w : ℕ) : ℤ)) ↔ n ≤ (s + 1) * w := by
        exact_mod_cast Iff.rfl
      have h3 : n ≤ (s + 1) * w ↔ (n + w - 1) / w ≤ s + 1 :=
        (ceilDiv_le_iff n w (s + 1) hw).symm
      rw [h1, h2, h3, hT]
      omega
    by_cases hbr : (n : ℤ) - ↑s * ↑w - ↑w ≤ 0 ∨ s = subranges - 1
    · rw [if_pos hbr]
      rcases hbr with hbr | hbr
      · have hTs : T ≤ s := hkey.1 hbr
        rw [min_eq_left (by omega)]
        omega
      · rw [min_eq_right (by omega)]
        omega
    · rw [if_neg hbr]
      have hne : s ≠ subranges - 1 := fun h => hbr (Or.inr h)
      have hTgt : ¬ T ≤ s := fun h => hbr (Or.inl (hkey.2 h))
      have harg : (n : ℤ) - ↑s * ↑w - ↑w = (n : ℤ) - ↑(s + 1) * ↑w := by
        push_cast
        ring
      rw [harg]
      exact ih (s + 1) (by omega) (by omega) (by omega)

theorem chooseSubrange_spec (n w k : ℕ) (hw : 1 ≤ w) (hk : 2 ≤ k)
    (hn31 : n < 2 ^ 31) (hw31 : w < 2 ^ 31) :
    chooseSubrange n w (k - 1) = min ((n + w - 1) / w - 1) (k - 2) := by
  unfold chooseSubrange
  have hsub1 : k - 1 - 1 = k - 2 := by omega
  by_cases hgate : 1 < k - 1
  · rw [if_pos hgate, toI32_eq_of_lt hn31, toI32_eq_of_lt hw31]
    have harg : (n : ℤ) = (n : ℤ) - ((0 : ℕ) : ℤ) * (w : ℤ) := by push_cast; ring
    rw [harg, chooseSubrangeAux_spec n w (k - 1) hw hn31 hw31 (k - 1 + 1) 0 (by omega)
      (by omega) (by omega), hsub1]
  · rw [if_neg hgate]
    have hk2 : k = 2 := by omega
    subst hk2
    rw [show (2 : ℕ) - 2 = 0 from rfl, Nat.min_zero]

/-- Claim C3 (corrected): for `n < L`, a palette of `k ≥ 2` colors and
subrange width `w = round(L / (k-1)) ≥ 1`, the mapper's subrange loop
selects `s = min(⌈n / w⌉ - 1, k - 2)` (`⌈n / w⌉` written as the
truncated `(n + w - 1) / w`, so `n = 0` gives subrange `0`), not
`min(⌊n / w⌋, k - 2)`: at an exact positive multiple of `w` the loop
stays in the earlier subrange (the coverage bump to `1.0`
compensates). It never selects past the last subrange. The `2^31`
bounds make the source's `u32`-to-`i32` casts value-preserving. -/
theorem claim_C3 (n L k w : ℕ) (hk : 2 ≤ k) (hnL : n < L)
    (hwdef : w = (roundHalfAwayFromZero ((L : ℚ) / ((k - 1 : ℕ) : ℚ))).toNat)
    (hw1 : 1 ≤ w) (hn31 : n < 2 ^ 31) (hw31 : w < 2 ^ 31) :
    chooseSubrange n w (k - 1) = min ((n + w - 1) / w - 1) (k - 2) ∧
    chooseSubrange n w (k - 1) ≤ k - 2 := by
  constructor
  · exact chooseSubrange_spec n w k hw1 hk hn31 hw31
  · have := chooseSubrange_le n w (k - 1)
    omega

/-- Claim C3, counterexample to the claim as stated: palette
`[RED, GREEN, BLUE]` (`k = 3`), limit 100, subrange width
`round(100 / 2) = 50`, iteration count `n = 50 < 100`: the claimed
formula `min(⌊50 / 50⌋, k - 2)` gives subrange 1, but the code's loop
selects subrange 0. -/
theorem claim_C3_counterexample :
    (roundHalfAwayFromZero ((100 : ℚ) / ((2 : ℕ) : ℚ))).toNat = 50 ∧
    chooseSubrange 50 50 (3 - 1) = 0 ∧
    min (50 / 50) (3 - 2) = 1 := by
  refine ⟨?_, by decide, by decide⟩
  rw [show ((100 : ℚ)) = ((100 : ℕ) : ℚ) by norm_num, roundHalfAwayFromZero_div_toNat]

/-- Claim C3 witness: concrete instance of the amended selection
formula at `n = 77`, `L = 100`, `k = 3`, `w = 50`. -/
theorem claim_C3_witness :
    2 ≤ 3 ∧ (77 : ℕ) < 100 ∧
    (50 : ℕ) = (roundHalfAwayFromZero ((100 : ℚ) / ((3 - 1 : ℕ) : ℚ))).toNat ∧
    1 ≤ 50 ∧ (77 : ℕ) < 2 ^ 31 ∧ (50 : ℕ) < 2 ^ 31 ∧
    chooseSubrange 77 50 (3 - 1) = min ((77 + 50 - 1) / 50 - 1) (3 - 2) ∧
    chooseSubrange 77 50 (3 - 1) ≤ 3 - 2 := by
  have hwdef : (50 : ℕ) = (roundHalfAwayFromZero ((100 : ℚ) / ((3 - 1 : ℕ) : ℚ))).toNat := by
    rw [show ((100 : ℚ)) = ((100 : ℕ) : ℚ) by norm_num, roundHalfAwayFromZero_div_toNat]
  have h := claim_C3 77 100 3 50 (by norm_num) (by norm_num) hwdef (by norm_num)
    (by norm_num) (by norm_num)
  exact ⟨by norm_num, by norm_num, hwdef, by norm_num, by norm_num, by norm_num, h.1, h.2⟩

/-- Claim C6 (corrected): provided `k - 1 ≤ 2L` (`k` the palette
length) — which is exactly when the computed subrange width
`round(L / (k-1))` is positive — `iterations_to_color` evaluates
without failure for every `n ≤ L`: the assert passes, every `%` and
`/` divides by the positive width (or by `k - 1 ≥ 1`), and both
palette indices stay in bounds. Outside that proviso the width is
zero and the function panics, see the counterexample. -/
theorem claim_C6 (n L : ℕ) (palette : List Rgb) (hk : 2 ≤ palette.length)
    (hL : 0 < L) (hn : n ≤ L) (hkL : palette.length - 1 ≤ 2 * L) :
    (iterations_to_color n L palette).isSome = true := by
  rw [iterations_to_color_eq_nat]
  unfold iterations_to_colorNat
  rw [if_neg (by omega)]
  by_cases hit : n = L
  · rw [if_pos hit]
    rfl
  · rw [if_neg hit]
    simp only
    set s := palette.length - 1 with hs
    set w := (2 * L + s) / (2 * s) with hw
    have hs1 : 1 ≤ s := by omega
    have hw1 : 1 ≤ w := by
      rw [hw]
      rw [Nat.le_div_iff_mul_le (by omega)]
      omega
    have hchosen : chooseSubrange n w s + 1 < palette.length := by
      have := chooseSubrange_le n w s
      omega
    by_cases hlt : w < n
    · rw [if_pos hlt, if_neg (by omega)]
      by_cases hmod : n % w = 0
      · rw [if_pos hmod]
        simp only
        rw [if_pos hchosen]
        rfl
      · rw [if_neg hmod]
        simp only
        rw [if_pos hchosen]
        rfl
    · rw [if_neg hlt]
      simp only
      rw [if_pos hchosen]
      rfl

/-- Claim C6, counterexample to the claim as stated: with limit `L = 2`
and a palette of 6 colors (`k - 1 = 5 > 4 = 2L`), the subrange width
rounds to `round(2 / 5) = 0`, and at `n = 1` the source computes
`1 % 0`, a division-by-zero panic (modelled as `none`). -/
theorem claim_C6_counterexample :
    iterations_to_color 1 2 [RED, ORANGE, YELLOW, GREEN, BLUE, VIOLET] = none ∧
    0 < 2 ∧ (1 : ℕ) ≤ 2 ∧
    2 ≤ [RED, ORANGE, YELLOW, GREEN, BLUE, VIOLET].length := by
  refine ⟨?_, by decide, by decide, by decide⟩
  rw [iterations_to_color_eq_nat]
  decide

/-- Claim C6 witness: concrete instance at `n = 7`, `L = 100`, palette
`[RED, GREEN, BLUE]`. -/
theorem claim_C6_witness :
    2 ≤ [RED, GREEN, BLUE].length ∧ 0 < 100 ∧ (7 : ℕ) ≤ 100 ∧
    [RED, GREEN, BLUE].length - 1 ≤ 2 * 100 ∧
    (iterations_to_color 7 100 [RED, GREEN, BLUE]).isSome = true := by
  exact ⟨by decide, by decide, by decide, by decide,
    claim_C6 7 100 [RED, GREEN, BLUE] (by decide) (by decide) (by decide) (by decide)⟩

/-!
Escape-time evaluator and coordinate mapper, from `mandelbrot.rs`.
`num_complex::Complex<f64>` is modelled as a pair of rationals.
-/

/-- Complex point, from `num_complex::Complex<f64>`. -/
structure CPoint where
  re : ℚ
  im : ℚ
deriving DecidableEq, Repr

/-- Complex addition. -/
def CPoint.add (a b : CPoint) : CPoint := ⟨a.re + b.re, a.im + b.im⟩

/-- Complex multiplication. -/
def CPoint.mul (a b : CPoint) : CPoint :=
  ⟨a.re * b.re - a.im * b.im, a.re * b.im + a.im * b.re⟩

/-- Squared magnitude, from `Complex::norm_sqr`. -/
def CPoint.norm_sqr (a : CPoint) : ℚ := a.re * a.re + a.im * a.im

/-- The loop of `escape_time`: `z = z * z + c` then test `|z|² > 4`,
returning the 0-based iteration index at the first escape. `rem` is the
number of loop iterations left (`limit` at entry), `i` the current
index. -/
def escapeTimeGo (c : CPoint) : CPoint → ℕ → ℕ → Option ℕ
  | _, _, 0 => none
  | z, i, rem + 1 =>
    let z' := (z.mul z).add c
    if 4 < z'.norm_sqr then some i else escapeTimeGo c z' (i + 1) rem

/-- Translation of `escape_time` from `mandelbrot.rs`: `Some i` if `c`
escaped at iteration `i < limit`, `None` if it never escaped within
`limit` iterations. -/
def escape_time (c : CPoint) (limit : ℕ) : Option ℕ :=
  escapeTimeGo c ⟨0, 0⟩ 0 limit

/-- Translation of `pixel_to_point` from `mandelbrot.rs` (called
`pixel_to_complex_point` at its use sites in `lib.rs`). -/
def pixel_to_point (pixel_x pixel_y width height : ℕ)
    (complex_upper_left_bound complex_lower_right_bound : CPoint) : CPoint :=
  let real_scale := complex_lower_right_bound.re - complex_upper_left_bound.re
  let imag_scale := complex_upper_left_bound.im - complex_lower_right_bound.im
  ⟨complex_upper_left_bound.re + pixel_x * real_scale / width,
   complex_upper_left_bound.im - pixel_y * imag_scale / height⟩

/-- Claim C5: the coordinate mapper computes exactly
`re = ul.re + x * (lr.re - ul.re) / width` and
`im = ul.im - y * (ul.im - lr.im) / height`, and pixel `(25, 75)` of a
100×100 image with viewport corners `-1+1i` and `1-1i` maps to
`-0.5-0.5i` (the source's `test_pixel_to_point`). -/
theorem claim_C5 :
    (∀ (x y width height : ℕ) (ul lr : CPoint), x < width → y < height →
      pixel_to_point x y width height ul lr =
        ⟨ul.re + x * (lr.re - ul.re) / width, ul.im - y * (ul.im - lr.im) / height⟩) ∧
    pixel_to_point 25 75 100 100 ⟨-1, 1⟩ ⟨1, -1⟩ = ⟨-(1/2), -(1/2)⟩ := by
  constructor
  · intro x y width height ul lr hx hy
    rfl
  · simp only [pixel_to_point, CPoint.mk.injEq]
    norm_num

/-- Claim C5 witness: the mapping formula instantiated at pixel
`(25, 75)` of a 100×100 image. -/
theorem claim_C5_witness :
    (25 : ℕ) < 100 ∧ (75 : ℕ) < 100 ∧
    pixel_to_point 25 75 100 100 ⟨-1, 1⟩ ⟨1, -1⟩ =
      ⟨(CPoint.mk (-1) 1).re + (25 : ℕ) * ((CPoint.mk 1 (-1)).re - (CPoint.mk (-1) 1).re) / (100 : ℕ),
       (CPoint.mk (-1) 1).im - (75 : ℕ) * ((CPoint.mk (-1) 1).im - (CPoint.mk 1 (-1)).im) / (100 : ℕ)⟩ :=
  ⟨by norm_num, by norm_num,
    claim_C5.1 25 75 100 100 ⟨-1, 1⟩ ⟨1, -1⟩ (by norm_num) (by norm_num)⟩

theorem escapeTimeGo_origin (i rem : ℕ) :
    escapeTimeGo ⟨0, 0⟩ ⟨0, 0⟩ i rem = none := by
  induction rem generalizing i with
  | zero => rfl
  | succ rem ih =>
    rw [escapeTimeGo]
    have hz : ((CPoint.mk 0 0).mul ⟨0, 0⟩).add ⟨0, 0⟩ = ⟨0, 0⟩ := by
      simp [CPoint.mul, CPoint.add]
    rw [hz]
    rw [if_neg (by simp [CPoint.norm_sqr])]
    exact ih (i + 1)

/-- Claim C7: for every positive limit, escape-time evaluation of the
origin `c = 0` keeps `z = 0` forever, never observes `|z|² > 4`, and
returns the did-not-escape sentinel `None`, which the callers read as
the value `limit`. -/
theorem claim_C7 (limit : ℕ) (hL : 0 < limit) :
    escape_time ⟨0, 0⟩ limit = none ∧
    (escape_time ⟨0, 0⟩ limit).getD limit = limit := by
  have h := escapeTimeGo_origin 0 limit
  exact ⟨h, by rw [escape_time, h]; rfl⟩

/-- Claim C7 witness: the origin does not escape within limit 5. -/
theorem claim_C7_witness :
    0 < 5 ∧ escape_time ⟨0, 0⟩ 5 = none ∧ (escape_time ⟨0, 0⟩ 5).getD 5 = 5 :=
  ⟨by norm_num, (claim_C7 5 (by norm_num)).1, (claim_C7 5 (by norm_num)).2⟩

/-!
Worker pool, from `threadpool.rs`. Only the constructor's contract is
claimed; workers are modelled by their ids.
-/

/-- Thread pool model: the list of worker ids created by
`ThreadPool::new` (`for id in 0..size { workers.push(Worker::new(id, ...)) }`). -/
structure ThreadPool where
  workers : List ℕ
deriving DecidableEq, Repr

/-- Translation of `ThreadPool::new` from `threadpool.rs`: the
`assert!(size > 0)` panic is modelled as `none`. -/
def ThreadPool.new (size : ℕ) : Option ThreadPool :=
  if size = 0 then none
  else some ⟨List.range size⟩

/-- Claim C9: `ThreadPool::new(size)` panics exactly when `size = 0`,
and for `size ≥ 1` builds a pool with exactly `size` workers. -/
theorem claim_C9 (size : ℕ) :
    (ThreadPool.new size = none ↔ size = 0) ∧
    (1 ≤ size → ∃ pool, ThreadPool.new size = some pool ∧ pool.workers.length = size) := by
  constructor
  · unfold ThreadPool.new
    by_cases h : size = 0
    · rw [if_pos h]
      exact ⟨fun _ => h, fun _ => rfl⟩
    · rw [if_neg h]
      exact ⟨fun hc => absurd hc (by simp), fun hc => absurd hc h⟩
  · intro hs
    refine ⟨⟨List.range size⟩, ?_, by simp⟩
    unfold ThreadPool.new
    rw [if_neg (by omega)]

/-- Claim C9 witness: a pool of size 4 is built with 4 workers. -/
theorem claim_C9_witness :
    (ThreadPool.new 0 = none ↔ (0 : ℕ) = 0) ∧ 1 ≤ 4 ∧
    ∃ pool, ThreadPool.new 4 = some pool ∧ pool.workers.length = 4 :=
  ⟨(claim_C9 0).1, by norm_num, (claim_C9 4).2 (by norm_num)⟩

/-!
Partitioning strategies, from `lib.rs`. The image's pixel coordinates
are enumerated in the row-major order of `enumerate_pixels_mut` (x
fastest); the shared `Arc<Mutex<RgbImage>>` buffer is a total function
from coordinates to colors, and a task's write is a pointwise update.
Worker tasks write pairwise-disjoint pixel sets, so the final buffer
of a render is independent of task interleaving and equals the result
of executing the tasks in submission order, which is what the render
functions below compute. The per-pixel color pipeline
(`pixel_to_complex_point` → `escape_time` → `iterations_to_color`,
closed over the viewport, limit and theme) is textually identical in
all three strategies, so it is abstracted as one function
`pixelColor : (x, y) → color`. -/

/-- Row-major enumeration of the pixel coordinates of a
`width × height` image, the order of `enumerate_pixels_mut`. -/
def coords (width height : ℕ) : List (ℕ × ℕ) :=
  (List.range height).flatMap fun y => (List.range width).map fun x => (x, y)

/-- The assignment loop of `divide_image_into_segments`: push each
pixel into `segments[curr_segment]`, advancing to the next segment
after `pixels_per_segment` pushes. -/
def assignLoop : List (ℕ × ℕ) → ℕ → ℕ → ℕ → List (List (ℕ × ℕ)) → List (List (ℕ × ℕ))
  | [], _, _, _, segments => segments
  | pd :: rest, pixels_per_segment, pixels_assigned, curr_segment, segments =>
    let segments' := segments.set curr_segment (segments.getD curr_segment [] ++ [pd])
    if pixels_assigned + 1 = pixels_per_segment then
      assignLoop rest pixels_per_segment 0 (curr_segment + 1) segments'
    else
      assignLoop rest pixels_per_segment (pixels_assigned + 1) curr_segment segments'

/-- Translation of `divide_image_into_segments` from `lib.rs`: one
segment per thread, each filled with `total_pixels / threads + 1`
pixels in scan order before moving to the next. (A segment's
`PixelData` initially carries the pixel's default color, which the
processing phase overwrites; only the coordinates matter, so segments
hold coordinates.) -/
def divide_image_into_segments (width height threads : ℕ) : List (List (ℕ × ℕ)) :=
  let total_pixels := width * height
  let pixels_per_segment := total_pixels / threads + 1
  assignLoop (coords width height) pixels_per_segment 0 0 (List.replicate threads [])

/-- Reference shape of the division: `n` chunks of `pps` consecutive
elements each (later chunks possibly short or empty). -/
def chunksPadded : ℕ → ℕ → List (ℕ × ℕ) → List (List (ℕ × ℕ))
  | 0, _, _ => []
  | n + 1, pps, cs => cs.take pps :: chunksPadded n pps (cs.drop pps)

theorem chunksPadded_nil (n pps : ℕ) : chunksPadded n pps [] = List.replicate n [] := by
  induction n with
  | zero => rfl
  | succ n ih => rw [chunksPadded, List.take_nil, List.drop_nil, ih, List.replicate_succ]

theorem chunksPadded_length (n pps : ℕ) (cs : List (ℕ × ℕ)) :
    (chunksPadded n pps cs).length = n := by
  induction n generalizing cs with
  | zero => rfl
  | succ n ih => rw [chunksPadded, List.length_cons, ih]

theorem chunksPadded_flatten (n pps : ℕ) :
    ∀ cs : List (ℕ × ℕ), cs.length ≤ n * pps → (chunksPadded n pps cs).flatten = cs := by
  induction n with
  | zero =>
    intro cs hcap
    have : cs = [] := List.eq_nil_of_length_eq_zero (by omega)
    subst this
    rfl
  | succ n ih =>
    intro cs hcap
    rw [chunksPadded, List.flatten_cons, ih (cs.drop pps) ?_, List.take_append_drop]
    have hmul : (n + 1) * pps = n * pps + pps := Nat.succ_mul n pps
    have := List.length_drop pps cs
    omega

theorem chunksPadded_getD (pps : ℕ) :
    ∀ (n i : ℕ) (cs : List (ℕ × ℕ)), i < n →
      (chunksPadded n pps cs).getD i [] = (cs.drop (i * pps)).take pps := by
  intro n
  induction n with
  | zero => intro i cs h; omega
  | succ n ih =>
    intro i cs h
    match i with
    | 0 => rw [chunksPadded, List.getD_cons_zero, Nat.zero_mul, List.drop_zero]
    | i + 1 =>
      rw [chunksPadded, List.getD_cons_succ, ih i (cs.drop pps) (by omega), List.drop_drop,
        show pps + i * pps = (i + 1) * pps by rw [Nat.succ_mul]; omega]

theorem set_middle (v : List (ℕ × ℕ)) :
    ∀ (pre : List (List (ℕ × ℕ))) (cur : List (ℕ × ℕ)) (tail : List (List (ℕ × ℕ))),
      (pre ++ cur :: tail).set pre.length v = pre ++ v :: tail := by
  intro pre
  induction pre with
  | nil => intro cur tail; rfl
  | cons p ps ih =>
    intro cur tail
    rw [List.cons_append, List.length_cons, List.set_cons_succ, ih, List.cons_append]

theorem getD_middle :
    ∀ (pre : List (List (ℕ × ℕ))) (cur : List (ℕ × ℕ)) (tail : List (List (ℕ × ℕ))),
      (pre ++ cur :: tail).getD pre.length [] = cur := by
  intro pre
  induction pre with
  | nil => intro cur tail; rfl
  | cons p ps ih =>
    intro cur tail
    rw [List.cons_append, List.length_cons, List.getD_cons_succ, ih]

theorem assignLoop_spec (pps : ℕ) (hpps : 1 ≤ pps) :
    ∀ (cs : List (ℕ × ℕ)) (assigned : ℕ) (pre : List (List (ℕ × ℕ)))
      (cur : List (ℕ × ℕ)) (m : ℕ),
      assigned < pps →
      cs.length + assigned ≤ (m + 1) * pps →
      assignLoop cs pps assigned pre.length (pre ++ cur :: List.replicate m []) =
        pre ++ (cur ++ cs.take (pps - assigned)) ::
          chunksPadded m pps (cs.drop (pps - assigned)) := by
  intro cs
  induction cs with
  | nil =>
    intro assigned pre cur m ha hcap
    rw [assignLoop, List.take_nil, List.drop_nil, List.append_nil, chunksPadded_nil]
  | cons c rest ih =>
    intro assigned pre cur m ha hcap
    simp only [assignLoop]
    rw [getD_middle, set_middle]
    by_cases hfull : assigned + 1 = pps
    · rw [if_pos hfull]
      have hps : pps - assigned = 1 := by omega
      rw [hps, show (c :: rest).take 1 = [c] from rfl, show (c :: rest).drop 1 = rest from rfl]
      match rest with
      | [] =>
        rw [assignLoop, chunksPadded_nil]
      | r :: rs =>
        have hmul : (m + 1) * pps = m * pps + pps := Nat.succ_mul m pps
        have hm : 1 ≤ m := by
          rcases Nat.eq_zero_or_pos m with hm0 | hm0
          · subst hm0
            simp only [List.length_cons] at hcap
            omega
          · exact hm0
        obtain ⟨m', rfl⟩ : ∃ m', m = m' + 1 := ⟨m - 1, by omega⟩
        rw [List.replicate_succ]
        rw [show pre ++ (cur ++ [c]) :: ([] : List (ℕ × ℕ)) :: List.replicate m' [] =
          (pre ++ [cur ++ [c]]) ++ ([] : List (ℕ × ℕ)) :: List.replicate m' [] by simp]
        rw [show pre.length + 1 = (pre ++ [cur ++ [c]]).length by simp]
        rw [ih 0 (pre ++ [cur ++ [c]]) [] m' (by omega) ?_]
        · rw [chunksPadded, Nat.sub_zero, List.nil_append, List.append_assoc,
            List.singleton_append]
        · have hmul' : (m' + 1 + 1) * pps = (m' + 1) * pps + pps := Nat.succ_mul (m' + 1) pps
          simp only [List.length_cons] at hcap ⊢
          omega
    · rw [if_neg hfull]
      rw [ih (assigned + 1) pre (cur ++ [c]) m (by omega) ?_]
      · have hsub : pps - assigned = (pps - (assigned + 1)) + 1 := by omega
        rw [hsub, List.take_succ_cons, List.drop_succ_cons, List.append_assoc,
          List.singleton_append]
      · simp only [List.length_cons] at hcap
        omega

theorem coords_length (width height : ℕ) : (coords width height).length = width * height := by
  induction height with
  | zero => rfl
  | succ h ih =>
    rw [coords, List.range_succ, List.flatMap_append, List.length_append,
      show ((List.range h).flatMap fun y => (List.range width).map fun x => (x, y)) =
        coords width h from rfl, ih]
    have h2 : (([h] : List ℕ).flatMap fun y => (List.range width).map fun x => (x, y)).length
        = width := by
      simp
    rw [h2, Nat.mul_succ]

theorem divide_image_into_segments_eq (width height threads : ℕ) (ht : 1 ≤ threads) :
    divide_image_into_segments width height threads =
      chunksPadded threads (width * height / threads + 1) (coords width height) := by
  simp only [divide_image_into_segments]
  obtain ⟨t', rfl⟩ : ∃ t', threads = t' + 1 := ⟨threads - 1, by omega⟩
  have hpps1 : 1 ≤ width * height / (t' + 1) + 1 :=
    Nat.le_add_left 1 (width * height / (t' + 1))
  have hcap : (coords width height).length + 0 ≤
      (t' + 1) * (width * height / (t' + 1) + 1) := by
    rw [coords_length]
    have hdm := Nat.div_add_mod (width * height) (t' + 1)
    have hml : width * height % (t' + 1) < t' + 1 := Nat.mod_lt _ (by omega)
    have hmul : (t' + 1) * (width * height / (t' + 1) + 1) =
        (t' + 1) * (width * height / (t' + 1)) + (t' + 1) := by
      rw [Nat.mul_add, Nat.mul_one]
    omega
  have hspec := assignLoop_spec (width * height / (t' + 1) + 1) hpps1 (coords width height)
    0 [] [] t' hpps1 hcap
  simp only [List.length_nil, List.nil_append, Nat.sub_zero] at hspec
  rw [List.replicate_succ, hspec, chunksPadded]

theorem total_le_mul_pps (total t : ℕ) (ht : 1 ≤ t) : total ≤ t * (total / t + 1) := by
  have hdm := Nat.div_add_mod total t
  have hml : total % t < t := Nat.mod_lt _ (by omega)
  have hmul : t * (total / t + 1) = t * (total / t) + t := by
    rw [Nat.mul_add, Nat.mul_one]
  omega

/-- The shared output image: a total assignment of colors to pixel
coordinates (`Arc<Mutex<RgbImage>>` in the source). -/
def PixelBuffer : Type := (ℕ × ℕ) → Rgb

/-- One locked single-pixel write,
`*pixels.lock().unwrap().get_pixel_mut(x, y) = color`. -/
def writePixel (pixels : PixelBuffer) (c : ℕ × ℕ) (color : Rgb) : PixelBuffer :=
  fun p => if p = c then color else pixels p

/-- Processing phase of a segment/row task: compute each pixel's color
into task-local storage (`pixel_data.pixel = iterations_to_color(...)`). -/
def processSegment (pixelColor : (ℕ × ℕ) → Rgb) (segment : List (ℕ × ℕ)) :
    List ((ℕ × ℕ) × Rgb) :=
  segment.map fun c => (c, pixelColor c)

/-- Write-back phase of a segment/row task: write every computed pixel
of the task to the shared image. -/
def writeSegment (pixels : PixelBuffer) (segment : List ((ℕ × ℕ) × Rgb)) : PixelBuffer :=
  segment.foldl (fun buf cv => writePixel buf cv.1 cv.2) pixels

/-- Translation of `render_multithreaded_preallocated_segments` from
`lib.rs`: split the image into `threads` segments; each task computes
its segment's colors, then writes them back. `pixelColor` abstracts
the per-pixel pipeline (`pixel_to_complex_point` → `escape_time` →
`iterations_to_color`, closed over viewport, limit and theme), which
is shared verbatim by all three strategies. -/
def render_multithreaded_preallocated_segments (pixelColor : (ℕ × ℕ) → Rgb)
    (width height threads : ℕ) (pixels : PixelBuffer) : PixelBuffer :=
  (divide_image_into_segments width height threads).foldl
    (fun buf segment => writeSegment buf (processSegment pixelColor segment)) pixels

/-- Translation of `divide_image_into_rows` from `lib.rs`: one list of
coordinates per image row, in scan order. -/
def divide_image_into_rows (width height : ℕ) : List (List (ℕ × ℕ)) :=
  (List.range height).map fun y => (List.range width).map fun x => (x, y)

/-- Translation of `render_multithreaded_pooled_rows` from `lib.rs`:
one pooled task per row; each task computes its row's colors, then
writes them back. The pool size `threads` does not affect the final
buffer. -/
def render_multithreaded_pooled_rows (pixelColor : (ℕ × ℕ) → Rgb)
    (width height threads : ℕ) (pixels : PixelBuffer) : PixelBuffer :=
  (divide_image_into_rows width height).foldl
    (fun buf row => writeSegment buf (processSegment pixelColor row)) pixels

/-- Translation of `render_multithreaded_pooled_pixels` from `lib.rs`:
one pooled task per pixel, each computing and writing one color. -/
def render_multithreaded_pooled_pixels (pixelColor : (ℕ × ℕ) → Rgb)
    (width height threads : ℕ) (pixels : PixelBuffer) : PixelBuffer :=
  (coords width height).foldl
    (fun buf c => writePixel buf c (pixelColor c)) pixels

theorem writeSegment_processSegment (pixelColor : (ℕ × ℕ) → Rgb)
    (segment : List (ℕ × ℕ)) (pixels : PixelBuffer) :
    writeSegment pixels (processSegment pixelColor segment) =
      segment.foldl (fun buf c => writePixel buf c (pixelColor c)) pixels := by
  rw [writeSegment, processSegment, List.foldl_map]

theorem foldl_writeSegment_flatten (pixelColor : (ℕ × ℕ) → Rgb) :
    ∀ (segs : List (List (ℕ × ℕ))) (pixels : PixelBuffer),
      segs.foldl (fun buf segment => writeSegment buf (processSegment pixelColor segment))
          pixels =
        segs.flatten.foldl (fun buf c => writePixel buf c (pixelColor c)) pixels := by
  intro segs
  induction segs with
  | nil => intro pixels; rfl
  | cons seg rest ih =>
    intro pixels
    rw [List.foldl_cons, ih, List.flatten_cons, List.foldl_append,
      writeSegment_processSegment]

theorem rows_flatten (width height : ℕ) :
    (divide_image_into_rows width height).flatten = coords width height := rfl

/-- Claim C1: for every fixed input — abstracted by the shared
per-pixel color function together with the image dimensions — and
every thread count ≥ 1, the three partitioning strategies leave the
shared pixel buffer in identical final states. Each strategy writes
every coordinate of the row-major enumeration exactly once with the
same color, so the sequentialized executions (faithful to any
interleaving, the written pixel sets being disjoint) coincide. -/
theorem claim_C1 (pixelColor : (ℕ × ℕ) → Rgb) (width height threads : ℕ)
    (pixels : PixelBuffer) (ht : 1 ≤ threads) :
    render_multithreaded_preallocated_segments pixelColor width height threads pixels =
      render_multithreaded_pooled_pixels pixelColor width height threads pixels ∧
    render_multithreaded_pooled_rows pixelColor width height threads pixels =
      render_multithreaded_pooled_pixels pixelColor width height threads pixels := by
  constructor
  · rw [render_multithreaded_preallocated_segments, render_multithreaded_pooled_pixels,
      foldl_writeSegment_flatten, divide_image_into_segments_eq width height threads ht,
      chunksPadded_flatten threads _ (coords width height) ?_]
    rw [coords_length]
    exact total_le_mul_pps (width * height) threads ht
  · rw [render_multithreaded_pooled_rows, render_multithreaded_pooled_pixels,
      foldl_writeSegment_flatten, rows_flatten]

/-- Constant per-pixel color function for the C1 witness. -/
def testPixelColor : (ℕ × ℕ) → Rgb := fun _ => RED

/-- All-black initial buffer for the C1 witness. -/
def testBuffer : PixelBuffer := fun _ => BLACK

/-- Claim C1 witness: concrete instance on a 3×2 image with 2 threads. -/
theorem claim_C1_witness :
    1 ≤ 2 ∧
    render_multithreaded_preallocated_segments testPixelColor 3 2 2 testBuffer =
      render_multithreaded_pooled_pixels testPixelColor 3 2 2 testBuffer ∧
    render_multithreaded_pooled_rows testPixelColor 3 2 2 testBuffer =
      render_multithreaded_pooled_pixels testPixelColor 3 2 2 testBuffer :=
  ⟨by norm_num,
    (claim_C1 testPixelColor 3 2 2 testBuffer (by norm_num)).1,
    (claim_C1 testPixelColor 3 2 2 testBuffer (by norm_num)).2⟩

/-- Claim C8 (corrected): `divide_image_into_segments` produces exactly
`threads` segments in row-major scan order, each filled to
`width * height / threads + 1` pixels (floor division plus one, not
`ceil`) before the next segment starts, trailing segments possibly
shorter or empty; a 3×3 image split 5 ways gives sizes
`[2, 2, 2, 2, 1]`. -/
theorem claim_C8 (width height threads : ℕ) (ht : 1 ≤ threads) :
    (divide_image_into_segments width height threads).length = threads ∧
    (∀ i, i < threads →
      ((divide_image_into_segments width height threads).getD i []).length =
        min (width * height / threads + 1)
          (width * height - i * (width * height / threads + 1))) ∧
    (divide_image_into_segments width height threads).flatten = coords width height ∧
    (divide_image_into_segments 3 3 5).map List.length = [2, 2, 2, 2, 1] := by
  rw [divide_image_into_segments_eq width height threads ht]
  refine ⟨chunksPadded_length _ _ _, ?_, ?_, by decide⟩
  · intro i hi
    rw [chunksPadded_getD _ threads i _ hi, List.length_take, List.length_drop,
      coords_length]
  · rw [chunksPadded_flatten threads _ (coords width height) ?_]
    rw [coords_length]
    exact total_le_mul_pps (width * height) threads ht

/-- Claim C8, counterexample to the claim as stated: a 2×2 image split
into 2 segments gets chunk sizes `[3, 1]`, not the claimed
`ceil(4 / 2) = 2` per chunk: the code's chunk size is
`total / threads + 1`, which differs from `ceil` exactly when
`threads` divides `total`. -/
theorem claim_C8_counterexample :
    (divide_image_into_segments 2 2 2).map List.length = [3, 1] ∧
    (2 * 2 + 2 - 1) / 2 = 2 ∧
    ((divide_image_into_segments 2 2 2).getD 0 []).length ≠ (2 * 2 + 2 - 1) / 2 := by
  refine ⟨by decide, by decide, by decide⟩

/-- Claim C8 witness: the amended division instantiated on the 3×3
image split 5 ways. -/
theorem claim_C8_witness :
    1 ≤ 5 ∧
    (divide_image_into_segments 3 3 5).length = 5 ∧
    ((divide_image_into_segments 3 3 5).getD 0 []).length =
      min (3 * 3 / 5 + 1) (3 * 3 - 0 * (3 * 3 / 5 + 1)) ∧
    (divide_image_into_segments 3 3 5).flatten = coords 3 3 := by
  have h := claim_C8 3 3 5 (by norm_num)
  exact ⟨by norm_num, h.1, h.2.1 0 (by norm_num), h.2.2.1⟩

end ThreadpoolFractal
